import Mathlib

/-!
Shallow embedding of the documentation-bundle packager (`package.py`):
TOC order extraction (`parse_toc_order`), version extraction
(`get_version`), per-document metadata extraction (`extract_metadata`),
the TOC resolution pass (`_process_files`), index rendering
(`_generate_skill_md`) and the orchestrating `build` flow, together with
theorems settling the specification claims.

Python strings become `String`, file system state is passed explicitly,
logging becomes an accumulated list of warning messages, filesystem
writes become an accumulated list of `Effect` values, and a raised
exception becomes an `Except`/`Option` error value.
-/

namespace SwiftPackager

instance instDecEqExcept {ε α : Type} [DecidableEq ε] [DecidableEq α] :
    DecidableEq (Except ε α) := fun a b =>
  match a, b with
  | .error x, .error y =>
      if h : x = y then .isTrue (by rw [h]) else .isFalse (fun hc => by cases hc; exact h rfl)
  | .error _, .ok _ => .isFalse (fun hc => by cases hc)
  | .ok _, .error _ => .isFalse (fun hc => by cases hc)
  | .ok x, .ok y =>
      if h : x = y then .isTrue (by rw [h]) else .isFalse (fun hc => by cases hc; exact h rfl)

/-- Python `\s` / `str.strip` whitespace class restricted to its ASCII
members (space, tab, newline, carriage return, vertical tab, form feed). -/
def pyIsSpace (c : Char) : Bool :=
  c == ' ' || c == '\t' || c == '\n' || c == '\r' || c == '\x0b' || c == '\x0c'

/-- Python `str.strip()`: remove leading and trailing whitespace. -/
def pyStrip (s : String) : String :=
  String.mk (((s.data.dropWhile pyIsSpace).reverse.dropWhile pyIsSpace).reverse)

/-- `s.startswith(p)` on the underlying character lists. -/
def startsWith (s p : String) : Bool :=
  List.isPrefixOf p.data s.data

/-- Python slice `s[n:]`. -/
def strDrop (s : String) (n : Nat) : String :=
  String.mk (s.data.drop n)

/-- Split a character list on `\n`, accumulating the current line in
reverse. -/
def splitOnNl : List Char → List Char → List String
  | [], acc => [String.mk acc.reverse]
  | c :: rest, acc =>
    if c = '\n' then String.mk acc.reverse :: splitOnNl rest []
    else splitOnNl rest (c :: acc)

/-- Python `str.splitlines()` for `\n`-separated text: split on `\n`,
without a trailing empty line for text ending in `\n` (carriage returns
left in place are removed later by `pyStrip`, as in the source where
every line is `strip()`ped before inspection). -/
def splitlines (s : String) : List String :=
  let parts := splitOnNl s.data []
  if parts.getLast? = some "" then parts.dropLast else parts

-- --- DocumentMetadata and extract_metadata -------------------------------

/-- `DocumentMetadata` from the source (the unused `path` field of the
Python dataclass, a filesystem handle, is omitted). -/
structure DocumentMetadata where
  filename : String
  sectionName : String
  title : String
  description : String
deriving DecidableEq, Repr

/-- The message of the Python `UnboundLocalError` raised by
`extract_metadata` when the loop ends without assigning `description`. -/
def unboundLocalMsg : String :=
  "UnboundLocalError: local variable \x27description\x27 referenced before assignment"

/-- The literal description fallback string from the source. -/
def noDescriptionMsg : String := "No description available."

/-- The line loop of `extract_metadata`: walks the lines carrying the
`title`, `found_title` and `in_metadata_block` state of the Python loop;
returns the final title together with the `description` local if it was
assigned (`none` models the Python local never having been assigned). -/
def extractLoop : List String → String → Bool → Bool → String × Option String
  | [], title, _, _ => (title, none)
  | line :: rest, title, foundTitle, inBlock =>
    let stripped := pyStrip line
    if startsWith stripped "@" then
      extractLoop rest title foundTitle true
    else if inBlock then
      if stripped = "\x7d" then extractLoop rest title foundTitle false
      else extractLoop rest title foundTitle true
    else if stripped = "" then
      extractLoop rest title foundTitle inBlock
    else if !foundTitle then
      if startsWith stripped "# " then
        extractLoop rest (pyStrip (strDrop stripped 2)) true inBlock
      else
        extractLoop rest title foundTitle inBlock
    else if startsWith stripped "#" || startsWith stripped "<" || startsWith stripped ">" then
      extractLoop rest title foundTitle inBlock
    else
      (title, some stripped)

/-- `ContentParser.extract_metadata`, as a function of the file's text,
stem, name and section.  The final `if not description:` line of the
source reads the `description` local, which was never initialised: when
the loop ends without assigning it, Python raises `UnboundLocalError`,
modelled by the `.error` branch. -/
def extract_metadata (content : String) (fileStem fileName sectionName : String) :
    Except String DocumentMetadata :=
  match extractLoop (splitlines content) fileStem false false with
  | (_, none) => .error unboundLocalMsg
  | (title, some d) =>
      let description := if d = "" then noDescriptionMsg else d
      .ok ⟨fileName, sectionName, title, description⟩

-- --- parse_toc_order ------------------------------------------------------

/-- For the regex fragment `([^>]+)>` starting at `cs`: the (possibly
empty) run of characters before the first `>` together with the text
after that `>`; `none` when `cs` has no `>` at all. -/
def scanIdent : List Char → Option (List Char × List Char)
  | [] => none
  | c :: rest =>
    if c = '>' then some ([], rest)
    else
      match scanIdent rest with
      | none => none
      | some (i, r) => some (c :: i, r)

/-- `re.findall(r'<doc:([^>]+)>', text)`: left-to-right scan attempting a
match at each position; a successful match is consumed (matches do not
overlap), encoded by the skip counter that carries the scan past the
remainder of the matched marker. -/
def docRefGo : List Char → Nat → List String
  | [], _ => []
  | _ :: rest, skip + 1 => docRefGo rest skip
  | c :: rest, 0 =>
    if List.isPrefixOf "<doc:".data (c :: rest) then
      match scanIdent (rest.drop 4) with
      | some (i, _) =>
          if i.isEmpty then docRefGo rest 0
          else String.mk i :: docRefGo rest (4 + i.length + 1)
      | none => docRefGo rest 0
    else docRefGo rest 0

/-- `ContentParser.parse_toc_order` applied to the TOC text: extract all
`<doc:IDENTIFIER>` references in order of appearance. -/
def parse_toc_order (content : String) : List String :=
  docRefGo content.data 0

-- --- get_version ----------------------------------------------------------

/-- One anchored attempt of the regex
`#\s+The Swift Programming Language\s+\(([^)]+)\)` at the head of `cs`
(the `^` anchor is handled by the caller).  Both `\s+` runs and the
`[^)]+` capture are taken greedily; because each is followed by a
character its class excludes, greedy maximal runs are exactly the regex
semantics (no backtracking can succeed where the maximal run fails). -/
def matchHeadingAt (cs : List Char) : Option String :=
  match cs with
  | '#' :: rest =>
    let ws1 := rest.takeWhile pyIsSpace
    if ws1.isEmpty then none
    else
      let r1 := rest.drop ws1.length
      if List.isPrefixOf "The Swift Programming Language".data r1 then
        let r2 := r1.drop "The Swift Programming Language".data.length
        let ws2 := r2.takeWhile pyIsSpace
        if ws2.isEmpty then none
        else
          match r2.drop ws2.length with
          | '(' :: r3 =>
            let cap := r3.takeWhile (fun c => c != ')')
            if cap.isEmpty then none
            else
              match r3.drop cap.length with
              | ')' :: _ => some (String.mk cap)
              | _ => none
          | _ => none
      else none
  | _ => none

/-- `re.search` with `re.MULTILINE` for the version heading: attempt the
anchored match at position 0 and after every newline, left to right; the
Boolean flag records whether the current position is a line start. -/
def searchHeadingGo : List Char → Bool → Option String
  | [], _ => none
  | c :: rest, atStart =>
    if atStart then
      match matchHeadingAt (c :: rest) with
      | some v => some v
      | none => searchHeadingGo rest (c = '\n')
    else searchHeadingGo rest (c = '\n')

/-- `ContentParser.get_version` applied to the TOC text: the
parenthesized capture of the first match of
`^#\s+The Swift Programming Language\s+\(([^)]+)\)` in multiline mode,
or `none` when the pattern matches nowhere. -/
def get_version (content : String) : Option String :=
  searchHeadingGo content.data true

-- --- Pipeline model -------------------------------------------------------

/-- A markdown file of a section directory: its stem (filename without
the `.md` extension, the key under which `_process_files` indexes it)
and its text. -/
structure SourceFile where
  stem : String
  content : String
deriving DecidableEq, Repr

/-- The filesystem writes the build can perform, in the order the source
performs them.  `appendFile` is the `GITHUB_OUTPUT` export, `removeTree`
and `mkdir` come from `_prepare_directory`, `mkdirP` and `copyFile` from
the copy step of `_process_files`, `copyLicense` from `_copy_license`,
`writeFile` from `_generate_skill_md` and `makeArchive` from
`_create_zip_archive`. -/
inductive Effect where
  | appendFile (path line : String)
  | removeTree (path : String)
  | mkdir (path : String)
  | mkdirP (path : String)
  | copyFile (dst content : String)
  | copyLicense (name : String)
  | writeFile (path content : String)
  | makeArchive (path : String)
deriving DecidableEq, Repr

/-- `Configuration.SECTIONS`. -/
def SECTIONS : List String := ["GuidedTour", "LanguageGuide", "ReferenceManual"]

/-- `Configuration.TOC_REL_PATH`. -/
def TOC_REL_PATH : String := "TSPL.docc/The-Swift-Programming-Language.md"

/-- `Configuration.SKILL_NAME`. -/
def SKILL_NAME : String := "programming-swift"

/-- `Configuration.REPO_URL`. -/
def REPO_URL : String := "https://github.com/swiftlang/swift-book.git"

/-- The source tree under `TSPL.docc`, as an association of section
directory names to the `*.md` files a directory scan enumerates (a
missing directory is an absent key). -/
def lookupDir : List (String × List SourceFile) → String → Option (List SourceFile)
  | [], _ => none
  | (name, files) :: rest, sec => if name = sec then some files else lookupDir rest sec

/-- The inner loop of the `file_map` construction: insert every file of
one section, later insertions overwriting earlier ones as for a Python
dict. -/
def insertAll (m : String → Option (String × SourceFile)) (sec : String)
    (files : List SourceFile) : String → Option (String × SourceFile) :=
  files.foldl (fun acc f => fun k => if k = f.stem then some (sec, f) else acc k) m

/-- One iteration of the `file_map` pre-indexing loop of
`_process_files`: warn about (and skip) a missing section directory,
insert the files of a present one. -/
def fileMapStep (tree : List (String × List SourceFile))
    (acc : (String → Option (String × SourceFile)) × List String) (sec : String) :
    (String → Option (String × SourceFile)) × List String :=
  match lookupDir tree sec with
  | none => (acc.1, acc.2 ++ ["Missing section: " ++ sec])
  | some files => (insertAll acc.1 sec files, acc.2)

/-- The `file_map` pre-indexing pass of `_process_files`: iterate the
configured sections with `fileMapStep`.  Returns the stem lookup
together with the accumulated warnings. -/
def buildFileMap (cfgSections : List String) (tree : List (String × List SourceFile)) :
    (String → Option (String × SourceFile)) × List String :=
  cfgSections.foldl (fileMapStep tree) ((fun _ => none), [])

/-- The state of the TOC-order resolution loop after it finishes or
raises: the metadata registry, the per-section processed counts, the
copy effects performed so far, and the exception message if the loop
raised. -/
structure ResolveOut where
  registry : List DocumentMetadata
  counts : String → Nat
  effects : List Effect
  err : Option String

/-- The `for doc_name in doc_order` loop of `_process_files`: skip
identifiers absent from the file map; for resolved ones extract
metadata, append it to the registry, bump the section count and (outside
dry-run) perform the copy.  An extraction exception aborts the loop. -/
def resolveLoop (fm : String → Option (String × SourceFile)) (dryRun : Bool)
    (outputPath : String) :
    List String → List DocumentMetadata → (String → Nat) → List Effect → ResolveOut
  | [], registry, counts, effs => ⟨registry, counts, effs, none⟩
  | d :: rest, registry, counts, effs =>
    match fm d with
    | none => resolveLoop fm dryRun outputPath rest registry counts effs
    | some (sec, f) =>
      match extract_metadata f.content f.stem (f.stem ++ ".md") sec with
      | .error e => ⟨registry, counts, effs, some e⟩
      | .ok meta =>
        let copyEffs :=
          if dryRun then []
          else [Effect.mkdirP (outputPath ++ "/" ++ sec),
                Effect.copyFile (outputPath ++ "/" ++ sec ++ "/" ++ f.stem ++ ".md") f.content]
        resolveLoop fm dryRun outputPath rest (registry ++ [meta])
          (fun s => if s = sec then counts s + 1 else counts s) (effs ++ copyEffs)

/-- `str.join` / `String.intercalate`, written structurally. -/
def joinSep (sep : String) : List String → String
  | [] => ""
  | [s] => s
  | s :: rest => s ++ sep ++ joinSep sep rest

/-- Python `repr` of a list of (quote-free) strings, as interpolated
into the structural error message. -/
def pyRepr (l : List String) : String :=
  "[" ++ joinSep ", " (l.map (fun s => "\x27" ++ s ++ "\x27")) ++ "]"

/-- The message of the `RuntimeError` raised when configured sections
resolved no documents. -/
def noDocsMsg (missing : List String) : String :=
  "No documents found for sections: " ++ pyRepr missing ++ ". Expected structure changed."

/-- The resolution loop of `_process_files` run on the file map built
from the tree (shared entry point for the pipeline and the theorems
about it). -/
def processFilesCore (cfgSections : List String) (tree : List (String × List SourceFile))
    (dryRun : Bool) (outputPath : String) (docOrder : List String) : ResolveOut :=
  resolveLoop (buildFileMap cfgSections tree).1 dryRun outputPath docOrder [] (fun _ => 0) []

/-- The observable result of `_process_files`: warnings, copy effects,
and either the registry or the exception message. -/
structure ProcessOut where
  warnings : List String
  effects : List Effect
  result : Except String (List DocumentMetadata)

/-- `SkillGenerator._process_files`: build the file map, resolve the TOC
order, then treat any configured section with zero processed documents
as a fatal structural error. -/
def process_files (cfgSections : List String) (tree : List (String × List SourceFile))
    (dryRun : Bool) (outputPath : String) (docOrder : List String) : ProcessOut :=
  let warns := (buildFileMap cfgSections tree).2
  let r := processFilesCore cfgSections tree dryRun outputPath docOrder
  match r.err with
  | some e => ⟨warns, r.effects, .error e⟩
  | none =>
    let missing := cfgSections.filter (fun s => r.counts s == 0)
    if missing.isEmpty then ⟨warns, r.effects, .ok r.registry⟩
    else ⟨warns, r.effects, .error (noDocsMsg missing)⟩

-- --- _generate_skill_md ---------------------------------------------------

/-- The description sanitiser of `_generate_skill_md`:
`desc.replace('[', '(').replace(']', ')')`, written as one character
map (equivalent because the first replacement never produces `]`). -/
def sanitizeDesc (d : String) : String :=
  String.mk (d.data.map (fun c => if c = '[' then '(' else if c = ']' then ')' else c))

/-- The `section_titles` display-name dict, with the `dict.get(key, key)`
fallback. -/
def sectionTitle (s : String) : String :=
  if s = "GuidedTour" then "Getting Started (GuidedTour)"
  else if s = "LanguageGuide" then "Language Guide"
  else if s = "ReferenceManual" then "Reference Manual"
  else s

/-- One index entry:
`- **title** ([section/filename](section/filename)): sanitized-description`. -/
def entryLine (d : DocumentMetadata) : String :=
  "- **" ++ d.title ++ "** ([" ++ d.sectionName ++ "/" ++ d.filename ++ "](" ++
    d.sectionName ++ "/" ++ d.filename ++ ")): " ++ sanitizeDesc d.description

/-- The lines a non-empty section contributes to the index (an empty
section contributes nothing, mirroring the `if not docs: continue`). -/
def sectionBlock (key : String) (docs : List DocumentMetadata) : List String :=
  if docs.isEmpty then []
  else ("### " ++ sectionTitle key) :: "" :: (docs.map entryLine ++ [""])

/-- `List.flatMap`, written structurally under a fixed name. -/
def listJoinMap {α β : Type} (f : α → List β) : List α → List β
  | [] => []
  | a :: l => f a ++ listJoinMap f l

/-- `version_suffix`: Python truthiness makes both `None` and the empty
string produce the empty suffix. -/
def versionSuffix (version : Option String) : String :=
  match version with
  | some v => if v = "" then "" else " (" ++ v ++ ")"
  | none => ""

/-- The fixed frontmatter and header lines of `SKILL.md`. -/
def skillPreamble (version : Option String) : List String :=
  ["---",
   "name: " ++ SKILL_NAME,
   "description: Provides the complete content of \x27The Swift Programming Language" ++
     versionSuffix version ++
     "\x27 book by Apple. Use this skill when you need to verify Swift syntax, look up language features, understand concurrency, resolve compiler errors, or consult the formal language reference.",
   "---",
   "",
   "# The Swift Programming Language",
   "",
   "The entire content of The Swift Programming Language" ++ versionSuffix version ++
     " book by Apple. This is a comprehensive language reference and guide to the Swift programming language.",
   "",
   "## Documentation Structure",
   ""]

/-- The fixed usage-notes and license lines of `SKILL.md`. -/
def skillFooter : List String :=
  ["## Usage Notes",
   "",
   "- Organized progressively: GuidedTour → LanguageGuide → ReferenceManual",
   "",
   "## License & Attribution",
   "",
   "This skill contains content from [The Swift Programming Language](" ++ REPO_URL ++
     "), distributed under the **Apache 2.0 License**.",
   "",
   "Copyright © Apple Inc. and the Swift project authors.",
   "",
   "This package is a derivative work that aggregates the original markdown content into a structure optimized for LLM context.",
   ""]

/-- The `content` line list of `_generate_skill_md`: preamble, one block
per configured section holding that section's registry entries in
registry order, then the footer. -/
def skillLines (cfgSections : List String) (registry : List DocumentMetadata)
    (version : Option String) : List String :=
  skillPreamble version ++
    listJoinMap
      (fun key => sectionBlock key (registry.filter (fun m => m.sectionName == key)))
      cfgSections ++
    skillFooter

/-- `SkillGenerator._generate_skill_md` rendered text:
`'\n'.join(content)`. -/
def generate_skill_md (cfgSections : List String) (registry : List DocumentMetadata)
    (version : Option String) : String :=
  joinSep "\n" (skillLines cfgSections registry version)

-- --- build ----------------------------------------------------------------

/-- The inputs one run of `SkillGenerator.build` reads: the TOC text
(`none` when the TOC file is missing), the section tree, the
`GITHUB_OUTPUT` environment variable, the dry-run flag, whether the
output directory already exists, the output path, and the names present
at the repository root that `_copy_license` probes. -/
structure BuildInput where
  tocText : Option String
  tree : List (String × List SourceFile)
  ghOutput : Option String
  dryRun : Bool
  outputExists : Bool
  outputPath : String
  licenses : List String

/-- The observable result of a run: warnings logged, filesystem effects
performed, and success or the fatal error message. -/
structure RunResult where
  warnings : List String
  effects : List Effect
  outcome : Except String Unit
deriving DecidableEq, Repr

/-- The candidate license filenames probed by `_copy_license`, in order. -/
def LICENSE_CANDIDATES : List String := ["LICENSE.md", "LICENSE", "LICENSE.txt"]

/-- The line appended to the `GITHUB_OUTPUT` file
(`self.version or "Unknown"`: Python `or` treats the empty string like
`None`). -/
def ghVersionLine (version : Option String) : String :=
  "swift_version=" ++
    (match version with
     | some v => if v = "" then "Unknown" else v
     | none => "Unknown") ++ "\n"

/-- `SkillGenerator.build`: version extraction (with its missing-TOC
warning), the unconditional `GITHUB_OUTPUT` export, TOC parsing (fatal
when the TOC is missing), directory preparation, `_process_files`,
license copy, index generation and archiving — the last four gated on
the dry-run flag exactly as in the source, with an exception at any step
aborting the remainder while keeping the effects already performed. -/
def runBuild (cfgSections : List String) (input : BuildInput) : RunResult :=
  let versionPair : Option String × List String :=
    match input.tocText with
    | none => (none, ["TOC file not found at " ++ TOC_REL_PATH])
    | some t => (get_version t, [])
  let version := versionPair.1
  let vwarns := versionPair.2
  let ghEffs : List Effect :=
    match input.ghOutput with
    | none => []
    | some p => [Effect.appendFile p (ghVersionLine version)]
  match input.tocText with
  | none => ⟨vwarns, ghEffs, .error ("TOC file not found: " ++ TOC_REL_PATH)⟩
  | some toc =>
    let docOrder := parse_toc_order toc
    let prepEffs : List Effect :=
      if input.dryRun then []
      else
        (if input.outputExists then [Effect.removeTree input.outputPath] else []) ++
          [Effect.mkdir input.outputPath]
    let p := process_files cfgSections input.tree input.dryRun input.outputPath docOrder
    let warns := vwarns ++ p.warnings
    let effs := ghEffs ++ prepEffs ++ p.effects
    match p.result with
    | .error e => ⟨warns, effs, .error e⟩
    | .ok registry =>
      match
        (if input.dryRun then some []
         else
           match LICENSE_CANDIDATES.find? (fun n => input.licenses.contains n) with
           | some n => some [Effect.copyLicense n]
           | none => none : Option (List Effect)) with
      | none =>
          ⟨warns, effs,
            .error "No license file found in repository root. Required for packaging."⟩
      | some licEffs =>
        let skillEffs :=
          if input.dryRun then []
          else [Effect.writeFile (input.outputPath ++ "/SKILL.md")
                  (generate_skill_md cfgSections registry version)]
        let zipEffs := if input.dryRun then [] else [Effect.makeArchive (input.outputPath ++ ".zip")]
        ⟨warns, effs ++ licEffs ++ skillEffs ++ zipEffs, .ok ()⟩

-- --- Specification-side definitions (for refinement comparisons) ----------

/-- Stated from the claim's words, for comparison with `get_version`:
scan the text line-by-line and return the parenthesized capture of the
first single line matching the level-1 heading form anchored at the
start of that line. -/
def firstLineVersion (text : String) : Option String :=
  (splitlines text).findSome? (fun line => matchHeadingAt line.data)

/-- A TOC text assembled from an initial separator and a list of
(identifier, following separator) pairs, each identifier wrapped in the
`<doc:...>` marker. -/
def renderToc : String → List (String × String) → String
  | s0, [] => s0
  | s0, (i, s) :: rest => s0 ++ "<doc:" ++ i ++ ">" ++ renderToc s rest

/-- `true` when an `Except` value carries a result. -/
def isOkB {ε α : Type} : Except ε α → Bool
  | .ok _ => true
  | .error _ => false

/-- `true` when a file-map entry, if present, extracts metadata without
raising. -/
def okEntry : Option (String × SourceFile) → Bool
  | none => true
  | some (sec, f) => isOkB (extract_metadata f.content f.stem (f.stem ++ ".md") sec)

/-- The registry the resolution pass is specified to produce: the
extracted metadata of exactly the identifiers present in the file map,
in TOC order. -/
def resolvedMetadata (fm : String → Option (String × SourceFile))
    (docOrder : List String) : List DocumentMetadata :=
  docOrder.filterMap (fun d =>
    match fm d with
    | none => none
    | some (sec, f) => (extract_metadata f.content f.stem (f.stem ++ ".md") sec).toOption)

/-- Holds for every effect that is not an index write. -/
def notIndexWrite : Effect → Prop
  | .writeFile _ _ => False
  | _ => True

/-- The effects a dry run is allowed to keep: just the `GITHUB_OUTPUT`
export, when that environment variable is set. -/
def ghOnlyEffects (input : BuildInput) : List Effect :=
  match input.ghOutput with
  | none => []
  | some p =>
      [Effect.appendFile p
        (ghVersionLine (match input.tocText with | none => none | some t => get_version t))]

/-- The last file of the enumeration with the given stem, mirroring the
last-wins overwrite of the Python dict insertion. -/
def stemFind (files : List SourceFile) (k : String) : Option SourceFile :=
  files.foldl (fun acc f => if f.stem = k then some f else acc) none

/-- Two directory listings represent the same on-disk state: both
absent, or both present with the same file multiset (an enumeration of
one directory never repeats a stem, carried as the `Nodup` component). -/
def DirEquiv : Option (List SourceFile) → Option (List SourceFile) → Prop
  | none, none => True
  | some l1, some l2 => l1.Perm l2 ∧ (l1.map SourceFile.stem).Nodup
  | _, _ => False

instance instDecDirEquiv : (o1 o2 : Option (List SourceFile)) → Decidable (DirEquiv o1 o2)
  | none, none => isTrue trivial
  | some l1, some l2 => inferInstanceAs (Decidable (l1.Perm l2 ∧ (l1.map SourceFile.stem).Nodup))
  | none, some _ => isFalse (fun h => h)
  | some _, none => isFalse (fun h => h)

-- --- Concrete inputs used by witnesses and counterexamples ----------------

/-- A well-formed GuidedTour document. -/
def fileA : SourceFile := ⟨"A", "# Alpha Title\n\nAlpha description.\n"⟩

/-- A well-formed LanguageGuide document. -/
def fileB : SourceFile := ⟨"B", "# Beta Title\n\nBeta description.\n"⟩

/-- A LanguageGuide document whose description contains square
brackets. -/
def fileC : SourceFile := ⟨"C", "# Gamma Title\n\nGamma [see] description.\n"⟩

/-- A well-formed ReferenceManual document. -/
def fileD : SourceFile := ⟨"D", "# Delta Title\n\nDelta description.\n"⟩

/-- A TOC referencing A, C, B, D (in that order) and one identifier with
no file. -/
def tocFull : String :=
  "# The Swift Programming Language (6.2)\n\n- <doc:A>\n- <doc:C>\n- <doc:B>\n- <doc:D>\n- <doc:External>\n"

/-- A complete source tree. -/
def treeFull : List (String × List SourceFile) :=
  [("GuidedTour", [fileA]), ("LanguageGuide", [fileB, fileC]), ("ReferenceManual", [fileD])]

/-- The same tree with the LanguageGuide enumeration in the opposite
scan order. -/
def treeFullSwapped : List (String × List SourceFile) :=
  [("GuidedTour", [fileA]), ("LanguageGuide", [fileC, fileB]), ("ReferenceManual", [fileD])]

/-- `treeFull` with the GuidedTour directory absent. -/
def treeMissing : List (String × List SourceFile) :=
  [("LanguageGuide", [fileB, fileC]), ("ReferenceManual", [fileD])]

/-- A normal (non-dry-run) input over the complete tree. -/
def inFull : BuildInput := ⟨some tocFull, treeFull, none, false, false, "out", ["LICENSE.md"]⟩

/-- `inFull` over the swapped tree. -/
def inFullSwapped : BuildInput :=
  ⟨some tocFull, treeFullSwapped, none, false, false, "out", ["LICENSE.md"]⟩

/-- A normal input over the tree missing its GuidedTour directory. -/
def inMissing : BuildInput := ⟨some tocFull, treeMissing, none, false, false, "out", ["LICENSE.md"]⟩

/-- A dry-run input with the `GITHUB_OUTPUT` environment variable set. -/
def inDry : BuildInput := ⟨some tocFull, treeFull, some "ghout", true, false, "out", ["LICENSE.md"]⟩

/-- A dry-run input without `GITHUB_OUTPUT`. -/
def inDryNoGh : BuildInput := ⟨some tocFull, treeFull, none, true, false, "out", ["LICENSE.md"]⟩

/-- The file map built from the complete tree. -/
def fmFull : String → Option (String × SourceFile) := (buildFileMap SECTIONS treeFull).1

/-- `treeFull` with the ReferenceManual directory absent. -/
def treeMissingRef : List (String × List SourceFile) :=
  [("GuidedTour", [fileA]), ("LanguageGuide", [fileB, fileC])]

/-- A normal input over the tree missing its ReferenceManual directory. -/
def inMissingRef : BuildInput :=
  ⟨some tocFull, treeMissingRef, none, false, false, "out", ["LICENSE.md"]⟩

-- ==========================================================================
-- Theorems
-- ==========================================================================

/-- C1.  `extract_metadata` does not always return a record: the local
`description` is assigned only when a candidate description line is
found, so on a document whose only content after its title is a
blockquote — precisely the case the claim says yields the fallback
description — the final `if not description:` check raises
`UnboundLocalError`.  The same happens when no `# ` title line exists at
all (every pre-title line is skipped, so no description is ever
assigned, and not even the filename-stem title fallback is observable in
a returned record).  The third conjunct shows the extractor does return
a record once a candidate description line exists. -/
theorem c1_extract_unbound :
    extract_metadata "# Hello World\n\n> A quote, then nothing else.\n"
      "Hello" "Hello.md" "LanguageGuide" = .error unboundLocalMsg ∧
    extract_metadata "Only prose content here.\n"
      "Plain" "Plain.md" "GuidedTour" = .error unboundLocalMsg ∧
    extract_metadata "# Hello World\n\nA real paragraph.\n"
      "Hello" "Hello.md" "LanguageGuide" =
      .ok ⟨"Hello.md", "LanguageGuide", "Hello World", "A real paragraph."⟩ := by
  refine ⟨by decide, by decide, by decide⟩

/-- C10.  A line starting `@` opens a metadata block even after the
title, and with no closing brace line every subsequent line is skipped,
so the prose never becomes the description — but instead of the claimed
description fallback the scan ends with the `description` local unbound
and `extract_metadata` raises.  The second conjunct shows the block
skipping itself behaves as claimed when the block is closed: the prose
after the closing brace line becomes the description. -/
theorem c10_metadata_block_skip :
    extract_metadata "# Title\n\n@Options(x)\nSome prose here.\nMore prose.\n"
      "Doc" "Doc.md" "GuidedTour" = .error unboundLocalMsg ∧
    extract_metadata "@Metadata\n@PageKind(article)\n\x7d\n# Real Title\nBody text.\n"
      "Doc" "Doc.md" "GuidedTour" =
      .ok ⟨"Doc.md", "GuidedTour", "Real Title", "Body text."⟩ := by
  refine ⟨by decide, by decide⟩

/-- C2 counterexample.  With the GuidedTour directory absent and the two
other sections resolving documents, the run does log the missing-section
warning but does not complete: the absent section necessarily finishes
with zero processed documents, so the post-pass validation raises the
structural `RuntimeError` and the run aborts. -/
theorem c2_counterexample :
    ("Missing section: GuidedTour" ∈ (runBuild SECTIONS inMissing).warnings) ∧
    (runBuild SECTIONS inMissing).outcome =
      .error "No documents found for sections: [\x27GuidedTour\x27]. Expected structure changed." := by
  refine ⟨by decide, by decide⟩

/-- C3 counterexample.  A dry run with the `GITHUB_OUTPUT` environment
variable set still appends the version line to that file: the export is
not gated on the dry-run flag, so a filesystem file is appended to. -/
theorem c3_counterexample :
    (runBuild SECTIONS inDry).effects = [Effect.appendFile "ghout" "swift_version=6.2\n"] ∧
    (runBuild SECTIONS inDry).effects ≠ [] := by
  refine ⟨by decide, by decide⟩

/-- C6 counterexample.  On `"#\nThe Swift Programming Language (6.2)"`
no single line matches the heading form (`firstLineVersion`, the
claim's line-by-line reading, returns `none`), yet `get_version` returns
`"6.2"`: the `\s+` after `#` matches the newline, so the regex match
spans two lines and the claimed absence does not hold. -/
theorem c6_counterexample :
    firstLineVersion "#\nThe Swift Programming Language (6.2)" = none ∧
    get_version "#\nThe Swift Programming Language (6.2)" = some "6.2" := by
  refine ⟨by decide, by decide⟩

-- --- C5: TOC order extraction ---------------------------------------------

theorem docRefGo_no_lt (sep t : List Char) (h : ∀ c ∈ sep, c ≠ '<') :
    docRefGo (sep ++ t) 0 = docRefGo t 0 := by
  induction sep with
  | nil => rfl
  | cons c cs ih =>
    have hc : c ≠ '<' := h c (List.mem_cons_self c cs)
    have hdata : "<doc:".data = '<' :: 'd' :: 'o' :: 'c' :: ':' :: [] := rfl
    have hp : List.isPrefixOf "<doc:".data (c :: (cs ++ t)) = false := by
      rw [hdata]
      simp [List.isPrefixOf]
      intro h1
      exact absurd h1.symm hc
    rw [List.cons_append]
    simp only [docRefGo, hp]
    exact ih (fun d hd => h d (List.mem_cons_of_mem c hd))

theorem docRefGo_drop (l t : List Char) : docRefGo (l ++ t) l.length = docRefGo t 0 := by
  induction l with
  | nil => rfl
  | cons c cs ih =>
    rw [List.cons_append, List.length_cons]
    simpa [docRefGo] using ih

theorem scanIdent_append (i t : List Char) (h : ∀ c ∈ i, c ≠ '>') :
    scanIdent (i ++ '>' :: t) = some (i, t) := by
  induction i with
  | nil => simp [scanIdent]
  | cons c cs ih =>
    have hc : c ≠ '>' := h c (List.mem_cons_self c cs)
    rw [List.cons_append]
    simp [scanIdent, hc, ih (fun d hd => h d (List.mem_cons_of_mem c hd))]

theorem docRefGo_marker (i t : List Char) (hne : i ≠ []) (h : ∀ c ∈ i, c ≠ '>') :
    docRefGo ('<' :: 'd' :: 'o' :: 'c' :: ':' :: (i ++ '>' :: t)) 0 =
      String.mk i :: docRefGo t 0 := by
  have hdata : "<doc:".data = '<' :: 'd' :: 'o' :: 'c' :: ':' :: [] := rfl
  have hp : List.isPrefixOf "<doc:".data
      ('<' :: 'd' :: 'o' :: 'c' :: ':' :: (i ++ '>' :: t)) = true := by
    rw [hdata]; simp [List.isPrefixOf]
  have hdrop : ('d' :: 'o' :: 'c' :: ':' :: (i ++ '>' :: t)).drop 4 = i ++ '>' :: t := rfl
  have hscan := scanIdent_append i t h
  have hempty : i.isEmpty = false := by cases i with
    | nil => exact absurd rfl hne
    | cons a as => rfl
  have hlist : 'd' :: 'o' :: 'c' :: ':' :: (i ++ '>' :: t) =
      ('d' :: 'o' :: 'c' :: ':' :: (i ++ ['>'])) ++ t := by
    simp
  have hlen : ('d' :: 'o' :: 'c' :: ':' :: (i ++ ['>'])).length = 4 + i.length + 1 := by
    simp; omega
  have hrest : docRefGo ('d' :: 'o' :: 'c' :: ':' :: (i ++ '>' :: t)) (4 + i.length + 1) =
      docRefGo t 0 := by
    rw [hlist, ← hlen]
    exact docRefGo_drop _ t
  simp only [docRefGo, hp, if_true, hdrop, hscan, hempty]
  simpa using hrest

/-- C5.  TOC order extraction returns exactly the identifiers of the
`<doc:IDENTIFIER>` markers, in order of appearance and including
duplicates, with no filtering: for any text assembled from separators
free of `<` and non-empty identifiers free of `>`, the extracted list is
the identifier list verbatim. -/
theorem c5_toc_order (s0 : String) (l : List (String × String))
    (h0 : ∀ c ∈ s0.data, c ≠ '<')
    (h1 : ∀ p ∈ l, p.1.data ≠ [] ∧ (∀ c ∈ p.1.data, c ≠ '>') ∧ (∀ c ∈ p.2.data, c ≠ '<')) :
    parse_toc_order (renderToc s0 l) = l.map Prod.fst := by
  induction l generalizing s0 with
  | nil =>
    show docRefGo (renderToc s0 []).data 0 = []
    have h := docRefGo_no_lt s0.data [] h0
    simpa [renderToc] using h
  | cons p rest ih =>
    obtain ⟨i, s⟩ := p
    have hhead := h1 (i, s) (List.mem_cons_self _ _)
    have hdata : (renderToc s0 ((i, s) :: rest)).data =
        s0.data ++ ('<' :: 'd' :: 'o' :: 'c' :: ':' :: (i.data ++ '>' :: (renderToc s rest).data)) := by
      show (s0 ++ "<doc:" ++ i ++ ">" ++ renderToc s rest).data = _
      simp [String.data_append]
    show docRefGo (renderToc s0 ((i, s) :: rest)).data 0 = _
    rw [hdata, docRefGo_no_lt _ _ h0,
      docRefGo_marker i.data (renderToc s rest).data hhead.1 hhead.2.1]
    have hstr : String.mk i.data = i := rfl
    rw [hstr]
    have htail := ih s hhead.2.2 (fun q hq => h1 q (List.mem_cons_of_mem _ hq))
    show _ :: docRefGo (renderToc s rest).data 0 = _
    rw [show docRefGo (renderToc s rest).data 0 = parse_toc_order (renderToc s rest) from rfl,
      htail]
    rfl

/-- Witness for C5: a TOC with four markers, one identifier repeated,
extracts exactly the four identifiers in order of appearance. -/
theorem c5_witness :
    renderToc "Intro. " [("A", " then "), ("C", " then "), ("B", " and "), ("A", " again.")] =
      "Intro. <doc:A> then <doc:C> then <doc:B> and <doc:A> again." ∧
    parse_toc_order
      (renderToc "Intro. " [("A", " then "), ("C", " then "), ("B", " and "), ("A", " again.")]) =
      ["A", "C", "B", "A"] := by
  refine ⟨by decide, ?_⟩
  have h := c5_toc_order "Intro. "
    [("A", " then "), ("C", " then "), ("B", " and "), ("A", " again.")]
    (by decide) (by decide)
  simpa using h

-- --- C6: version extraction -----------------------------------------------

theorem matchHeadingAt_not_hash (c : Char) (rest : List Char) (h : c ≠ '#') :
    matchHeadingAt (c :: rest) = none := by
  unfold matchHeadingAt
  split
  · rename_i r heq
    injection heq with h1 h2
    exact absurd h1 h
  · rfl

theorem searchHeadingGo_skip (l : List Char) (b : Bool) (t : List Char)
    (h : ∀ c ∈ l, c ≠ '#') :
    searchHeadingGo (l ++ '\n' :: t) b = searchHeadingGo t true := by
  induction l generalizing b with
  | nil =>
    cases b with
    | true => simp [searchHeadingGo, matchHeadingAt_not_hash '\n' t (by decide)]
    | false => simp [searchHeadingGo]
  | cons c cs ih =>
    have hc : c ≠ '#' := h c (List.mem_cons_self c cs)
    have ih' := fun b2 => ih b2 (fun d hd => h d (List.mem_cons_of_mem c hd))
    cases b with
    | true =>
      rw [List.cons_append]
      simp only [searchHeadingGo, matchHeadingAt_not_hash c _ hc, if_true]
      exact ih' _
    | false =>
      rw [List.cons_append]
      simp only [searchHeadingGo, Bool.false_eq_true, if_false]
      exact ih' _

/-- C6 (amended).  `get_version` searches for the heading pattern
anchored at every line start, not just the first line: any prefix of
lines free of `#` is scanned past without affecting the result (first
conjunct), the spec's example yields its version, and a heading with no
parenthesized suffix yields absence — absence being a value, not an
error.  (As the counterexample shows, a match may span lines because the
pattern's whitespace class contains the newline, so "first match" rather
than "first matching line".) -/
theorem c6_version_extraction (pre text : String) (h : ∀ c ∈ pre.data, c ≠ '#') :
    get_version (pre ++ "\n" ++ text) = get_version text ∧
    get_version "# The Swift Programming Language (6.2)\nBody text." = some "6.2" ∧
    get_version "# The Swift Programming Language\nBody text." = none := by
  refine ⟨?_, by decide, by decide⟩
  show searchHeadingGo (pre ++ "\n" ++ text).data true = searchHeadingGo text.data true
  have hnl : ("\n" : String).data = ['\n'] := rfl
  have hdata : (pre ++ "\n" ++ text).data = pre.data ++ '\n' :: text.data := by
    simp [String.data_append, hnl]
  rw [hdata]
  exact searchHeadingGo_skip pre.data true text.data h

/-- Witness for C6: a hash-free preamble line is scanned past and the
heading on the second line yields its version. -/
theorem c6_witness :
    get_version ("Preamble line, no hash." ++ "\n" ++ "# The Swift Programming Language (5.9)") =
      some "5.9" := by
  have h := c6_version_extraction "Preamble line, no hash."
    "# The Swift Programming Language (5.9)" (by decide)
  rw [h.1]
  decide

-- --- C4: the resolution pass ----------------------------------------------

theorem extract_metadata_fields (content fileStem fileName sec : String)
    (m : DocumentMetadata)
    (h : extract_metadata content fileStem fileName sec = .ok m) :
    m.sectionName = sec ∧ m.filename = fileName := by
  unfold extract_metadata at h
  split at h
  · simp at h
  · rename_i title d
    injection h with hm
    rw [← hm]
    exact ⟨rfl, rfl⟩

theorem resolveLoop_ok (fm : String → Option (String × SourceFile)) (dryRun : Bool)
    (outputPath : String) :
    ∀ (docOrder : List String) (reg : List DocumentMetadata) (cts : String → Nat)
      (effs : List Effect),
      (∀ d ∈ docOrder, okEntry (fm d) = true) →
      (resolveLoop fm dryRun outputPath docOrder reg cts effs).err = none ∧
      (resolveLoop fm dryRun outputPath docOrder reg cts effs).registry =
        reg ++ resolvedMetadata fm docOrder ∧
      ∀ s, (resolveLoop fm dryRun outputPath docOrder reg cts effs).counts s =
        cts s + ((resolvedMetadata fm docOrder).filter (fun m => m.sectionName == s)).length := by
  intro docOrder
  induction docOrder with
  | nil =>
    intro reg cts effs _
    refine ⟨rfl, by simp [resolvedMetadata, resolveLoop], fun s => by
      simp [resolvedMetadata, resolveLoop]⟩
  | cons d rest ih =>
    intro reg cts effs h
    have hd := h d (List.mem_cons_self _ _)
    have hrest := fun d2 hd2 => h d2 (List.mem_cons_of_mem _ hd2)
    cases hfm : fm d with
    | none =>
      have hres : resolvedMetadata fm (d :: rest) = resolvedMetadata fm rest := by
        simp [resolvedMetadata, hfm]
      simp only [resolveLoop, hfm, hres]
      exact ih reg cts effs hrest
    | some entry =>
      obtain ⟨sec, f⟩ := entry
      rw [hfm] at hd
      cases hext : extract_metadata f.content f.stem (f.stem ++ ".md") sec with
      | error e =>
        rw [okEntry, hext] at hd
        simp [isOkB] at hd
      | ok meta =>
        have hres : resolvedMetadata fm (d :: rest) = meta :: resolvedMetadata fm rest := by
          simp [resolvedMetadata, hfm, hext, Except.toOption]
        have hsec : meta.sectionName = sec :=
          (extract_metadata_fields f.content f.stem (f.stem ++ ".md") sec meta hext).1
        simp only [resolveLoop, hfm, hext, hres]
        have hmain := ih (reg ++ [meta]) (fun s => if s = sec then cts s + 1 else cts s)
          (effs ++ if dryRun then [] else
            [Effect.mkdirP (outputPath ++ "/" ++ sec),
             Effect.copyFile (outputPath ++ "/" ++ sec ++ "/" ++ f.stem ++ ".md") f.content])
          hrest
        refine ⟨hmain.1, ?_, ?_⟩
        · rw [hmain.2.1]
          simp
        · intro s
          rw [hmain.2.2 s]
          by_cases hs : s = sec
          · subst hs
            simp [hsec]
            omega
          · have hne : (meta.sectionName == s) = false := by
              rw [hsec]
              exact beq_false_of_ne (fun hc => hs hc.symm)
            simp [hne, hs]

/-- C4.  Under the hypothesis that every resolvable identifier extracts
metadata without raising, the resolution loop finishes without error,
its registry is exactly the extracted metadata of the identifiers
present in the file map — in the relative order of the input sequence,
duplicates included, unknown identifiers silently skipped — and each
section's processed count equals the number of registry entries carrying
that section. -/
theorem c4_resolution_pass (fm : String → Option (String × SourceFile)) (dryRun : Bool)
    (outputPath : String) (docOrder : List String)
    (h : ∀ d ∈ docOrder, okEntry (fm d) = true) :
    (resolveLoop fm dryRun outputPath docOrder [] (fun _ => 0) []).err = none ∧
    (resolveLoop fm dryRun outputPath docOrder [] (fun _ => 0) []).registry =
      resolvedMetadata fm docOrder ∧
    ∀ s, (resolveLoop fm dryRun outputPath docOrder [] (fun _ => 0) []).counts s =
      ((resolvedMetadata fm docOrder).filter (fun m => m.sectionName == s)).length := by
  have h2 := resolveLoop_ok fm dryRun outputPath docOrder [] (fun _ => 0) [] h
  exact ⟨h2.1, by simpa using h2.2.1, fun s => by simpa using h2.2.2 s⟩

/-- Witness for C4: the TOC order A, C, Missing, B, A over the complete
tree resolves to the registry A, C, B, A (the unknown identifier is
skipped, the duplicate kept, on-disk scan order irrelevant), with two
LanguageGuide documents counted. -/
theorem c4_witness :
    (resolveLoop fmFull false "out" ["A", "C", "Missing", "B", "A"] [] (fun _ => 0) []).registry =
      [⟨"A.md", "GuidedTour", "Alpha Title", "Alpha description."⟩,
       ⟨"C.md", "LanguageGuide", "Gamma Title", "Gamma [see] description."⟩,
       ⟨"B.md", "LanguageGuide", "Beta Title", "Beta description."⟩,
       ⟨"A.md", "GuidedTour", "Alpha Title", "Alpha description."⟩] ∧
    (resolveLoop fmFull false "out" ["A", "C", "Missing", "B", "A"] [] (fun _ => 0) []).counts
      "LanguageGuide" = 2 := by
  have h := c4_resolution_pass fmFull false "out" ["A", "C", "Missing", "B", "A"] (by decide)
  refine ⟨?_, ?_⟩
  · rw [h.2.1]
    decide
  · rw [h.2.2 "LanguageGuide"]
    decide

-- --- C2 and C7: missing directories and empty sections --------------------

theorem foldl_fileMapStep_warn (tree : List (String × List SourceFile)) (s : String) :
    ∀ (cfg : List String) (acc : (String → Option (String × SourceFile)) × List String),
      ((s ∈ cfg ∧ lookupDir tree s = none) ∨ ("Missing section: " ++ s) ∈ acc.2) →
      ("Missing section: " ++ s) ∈ (cfg.foldl (fileMapStep tree) acc).2 := by
  intro cfg
  induction cfg with
  | nil =>
    intro acc h
    rcases h with ⟨hmem, _⟩ | hin
    · cases hmem
    · exact hin
  | cons c cs ih =>
    intro acc h
    rw [List.foldl_cons]
    apply ih
    rcases h with ⟨hmem, hmiss⟩ | hin
    · rcases List.mem_cons.mp hmem with rfl | hmem2
      · right
        simp [fileMapStep, hmiss]
      · left
        exact ⟨hmem2, hmiss⟩
    · right
      cases h2 : lookupDir tree c with
      | none => simp [fileMapStep, h2]; exact Or.inl hin
      | some files => simpa [fileMapStep, h2] using hin

theorem buildFileMap_warn (cfg : List String) (tree : List (String × List SourceFile))
    (s : String) (hs : s ∈ cfg) (hmiss : lookupDir tree s = none) :
    ("Missing section: " ++ s) ∈ (buildFileMap cfg tree).2 :=
  foldl_fileMapStep_warn tree s cfg ((fun _ => none), []) (Or.inl ⟨hs, hmiss⟩)

theorem insertAll_cases (sec : String) (files : List SourceFile) :
    ∀ (m : String → Option (String × SourceFile)) (k s2 : String) (f2 : SourceFile),
      insertAll m sec files k = some (s2, f2) → s2 = sec ∨ m k = some (s2, f2) := by
  induction files with
  | nil => intro m k s2 f2 h; exact Or.inr h
  | cons f fs ih =>
    intro m k s2 f2 h
    have h2 : insertAll (fun k2 => if k2 = f.stem then some (sec, f) else m k2) sec fs k =
        some (s2, f2) := h
    rcases ih _ k s2 f2 h2 with hsec | hm
    · exact Or.inl hsec
    · by_cases hk : k = f.stem
      · have h3 : sec = s2 ∧ f = f2 := by simpa [hk] using hm
        exact Or.inl h3.1.symm
      · have h3 : m k = some (s2, f2) := by simpa [hk] using hm
        exact Or.inr h3

theorem foldl_fileMapStep_range (tree : List (String × List SourceFile)) (k s2 : String)
    (f2 : SourceFile) :
    ∀ (cfg : List String) (acc : (String → Option (String × SourceFile)) × List String),
      (acc.1 k = some (s2, f2) → lookupDir tree s2 ≠ none) →
      ((cfg.foldl (fileMapStep tree) acc).1 k = some (s2, f2) → lookupDir tree s2 ≠ none) := by
  intro cfg
  induction cfg with
  | nil => intro acc hacc h; exact hacc h
  | cons c cs ih =>
    intro acc hacc
    rw [List.foldl_cons]
    apply ih
    intro hstep
    cases h2 : lookupDir tree c with
    | none =>
      rw [fileMapStep, h2] at hstep
      exact hacc hstep
    | some files =>
      rw [fileMapStep, h2] at hstep
      rcases insertAll_cases c files acc.1 k s2 f2 hstep with rfl | hm
      · rw [h2]
        exact fun hc => Option.noConfusion hc
      · exact hacc hm

theorem buildFileMap_range (cfg : List String) (tree : List (String × List SourceFile))
    (k s2 : String) (f2 : SourceFile)
    (h : (buildFileMap cfg tree).1 k = some (s2, f2)) : lookupDir tree s2 ≠ none :=
  foldl_fileMapStep_range tree k s2 f2 cfg ((fun _ => none), [])
    (fun hc => Option.noConfusion hc) h

theorem resolveLoop_counts_zero (fm : String → Option (String × SourceFile))
    (dryRun : Bool) (outputPath : String) (s : String)
    (hfm : ∀ k sec f, fm k = some (sec, f) → sec ≠ s) :
    ∀ (docOrder : List String) (reg : List DocumentMetadata) (cts : String → Nat)
      (effs : List Effect), cts s = 0 →
      (resolveLoop fm dryRun outputPath docOrder reg cts effs).counts s = 0 := by
  intro docOrder
  induction docOrder with
  | nil => intro reg cts effs h0; exact h0
  | cons d rest ih =>
    intro reg cts effs h0
    cases hfmd : fm d with
    | none =>
      simp only [resolveLoop, hfmd]
      exact ih _ _ _ h0
    | some entry =>
      obtain ⟨sec, f⟩ := entry
      have hne : sec ≠ s := hfm d sec f hfmd
      cases hext : extract_metadata f.content f.stem (f.stem ++ ".md") sec with
      | error e =>
        simp only [resolveLoop, hfmd, hext]
        exact h0
      | ok meta =>
        simp only [resolveLoop, hfmd, hext]
        apply ih
        rw [if_neg (fun hc => hne hc.symm)]
        exact h0

theorem process_files_missing (cfg : List String) (tree : List (String × List SourceFile))
    (dryRun : Bool) (outputPath : String) (docOrder : List String) (s : String)
    (hs : s ∈ cfg) (hmiss : lookupDir tree s = none) :
    ("Missing section: " ++ s) ∈ (process_files cfg tree dryRun outputPath docOrder).warnings ∧
    ∃ m, (process_files cfg tree dryRun outputPath docOrder).result = .error m := by
  constructor
  · have hw := buildFileMap_warn cfg tree s hs hmiss
    unfold process_files
    cases herr : (processFilesCore cfg tree dryRun outputPath docOrder).err with
    | some e => simpa [herr] using hw
    | none =>
      by_cases hemp : (cfg.filter
          (fun x => (processFilesCore cfg tree dryRun outputPath docOrder).counts x == 0)).isEmpty
      · simpa [herr, hemp] using hw
      · simpa [herr, hemp] using hw
  · cases herr : (processFilesCore cfg tree dryRun outputPath docOrder).err with
    | some e =>
      refine ⟨e, ?_⟩
      unfold process_files
      simp [herr]
    | none =>
      have hfm : ∀ k sec f, (buildFileMap cfg tree).1 k = some (sec, f) → sec ≠ s := by
        intro k sec f h hc
        subst hc
        exact buildFileMap_range cfg tree k sec f h hmiss
      have hzero : (processFilesCore cfg tree dryRun outputPath docOrder).counts s = 0 :=
        resolveLoop_counts_zero (buildFileMap cfg tree).1 dryRun outputPath s hfm
          docOrder [] (fun _ => 0) [] rfl
      have hmemf : s ∈ cfg.filter
          (fun x => (processFilesCore cfg tree dryRun outputPath docOrder).counts x == 0) :=
        List.mem_filter.mpr ⟨hs, by simp [hzero]⟩
      have hemp : (cfg.filter
          (fun x => (processFilesCore cfg tree dryRun outputPath docOrder).counts x == 0)).isEmpty
          = false := by
        cases hfl : cfg.filter
            (fun x => (processFilesCore cfg tree dryRun outputPath docOrder).counts x == 0) with
        | nil => rw [hfl] at hmemf; cases hmemf
        | cons a l => rfl
      refine ⟨noDocsMsg (cfg.filter
        (fun x => (processFilesCore cfg tree dryRun outputPath docOrder).counts x == 0)), ?_⟩
      unfold process_files
      simp [herr, hemp]

/-- C2 (amended).  A missing configured section directory is warned
about during indexing, but the run does not complete: the section
necessarily finishes the resolution pass with zero processed documents,
so the run aborts with a fatal error (the structural validation error
when the pass itself completes, or the pass's own exception otherwise). -/
theorem c2_missing_section_aborts (cfg : List String) (input : BuildInput) (toc s : String)
    (htoc : input.tocText = some toc) (hs : s ∈ cfg)
    (hmiss : lookupDir input.tree s = none) :
    ("Missing section: " ++ s) ∈ (runBuild cfg input).warnings ∧
    ∃ m, (runBuild cfg input).outcome = .error m := by
  obtain ⟨hw, e, he⟩ := process_files_missing cfg input.tree input.dryRun input.outputPath
    (parse_toc_order toc) s hs hmiss
  unfold runBuild
  rw [htoc]
  simp only [he]
  exact ⟨by simpa using hw, e, by simp [he]⟩

/-- Witness for C2 (amended): with the ReferenceManual directory absent,
the run warns about it and aborts with the structural error naming it. -/
theorem c2_witness :
    ("Missing section: ReferenceManual" ∈ (runBuild SECTIONS inMissingRef).warnings) ∧
    (runBuild SECTIONS inMissingRef).outcome =
      .error "No documents found for sections: [\x27ReferenceManual\x27]. Expected structure changed." := by
  have h := c2_missing_section_aborts SECTIONS inMissingRef tocFull "ReferenceManual"
    rfl (by decide) (by decide)
  exact ⟨h.1, by decide⟩

theorem resolveLoop_no_writeFile (fm : String → Option (String × SourceFile))
    (dryRun : Bool) (outputPath : String) :
    ∀ (docOrder : List String) (reg : List DocumentMetadata) (cts : String → Nat)
      (effs : List Effect), (∀ e ∈ effs, notIndexWrite e) →
      ∀ e ∈ (resolveLoop fm dryRun outputPath docOrder reg cts effs).effects, notIndexWrite e := by
  intro docOrder
  induction docOrder with
  | nil => intro reg cts effs h; exact h
  | cons d rest ih =>
    intro reg cts effs h
    cases hfmd : fm d with
    | none =>
      simp only [resolveLoop, hfmd]
      exact ih _ _ _ h
    | some entry =>
      obtain ⟨sec, f⟩ := entry
      cases hext : extract_metadata f.content f.stem (f.stem ++ ".md") sec with
      | error e2 =>
        simp only [resolveLoop, hfmd, hext]
        exact h
      | ok meta =>
        simp only [resolveLoop, hfmd, hext]
        apply ih
        intro e he
        rcases List.mem_append.mp he with h1 | h2
        · exact h e h1
        · by_cases hdry : dryRun
          · rw [if_pos hdry] at h2
            cases h2
          · rw [if_neg hdry] at h2
            rcases List.mem_cons.mp h2 with rfl | h3
            · trivial
            · rcases List.mem_cons.mp h3 with rfl | h4
              · trivial
              · cases h4

/-- C7.  When the resolution pass completes and a configured section has
zero processed documents, the run halts with the structural
`RuntimeError` whose message lists exactly the zero-count sections (the
given section among them), and no index file write appears among the
run's effects. -/
theorem c7_empty_section_fatal (cfg : List String) (input : BuildInput) (toc s : String)
    (htoc : input.tocText = some toc) (hs : s ∈ cfg)
    (hok : (processFilesCore cfg input.tree input.dryRun input.outputPath
      (parse_toc_order toc)).err = none)
    (hzero : (processFilesCore cfg input.tree input.dryRun input.outputPath
      (parse_toc_order toc)).counts s = 0) :
    s ∈ cfg.filter (fun x => (processFilesCore cfg input.tree input.dryRun input.outputPath
      (parse_toc_order toc)).counts x == 0) ∧
    (runBuild cfg input).outcome =
      .error (noDocsMsg (cfg.filter (fun x => (processFilesCore cfg input.tree input.dryRun
        input.outputPath (parse_toc_order toc)).counts x == 0))) ∧
    ∀ p c, Effect.writeFile p c ∉ (runBuild cfg input).effects := by
  have hmemf : s ∈ cfg.filter (fun x => (processFilesCore cfg input.tree input.dryRun
      input.outputPath (parse_toc_order toc)).counts x == 0) :=
    List.mem_filter.mpr ⟨hs, by simp [hzero]⟩
  have hemp : (cfg.filter (fun x => (processFilesCore cfg input.tree input.dryRun
      input.outputPath (parse_toc_order toc)).counts x == 0)).isEmpty = false := by
    cases hfl : cfg.filter (fun x => (processFilesCore cfg input.tree input.dryRun
        input.outputPath (parse_toc_order toc)).counts x == 0) with
    | nil => rw [hfl] at hmemf; cases hmemf
    | cons a l => rfl
  have hres : (process_files cfg input.tree input.dryRun input.outputPath
      (parse_toc_order toc)).result =
      .error (noDocsMsg (cfg.filter (fun x => (processFilesCore cfg input.tree input.dryRun
        input.outputPath (parse_toc_order toc)).counts x == 0))) := by
    unfold process_files
    simp [hok, hemp]
  have heffs : ∀ e ∈ (process_files cfg input.tree input.dryRun input.outputPath
      (parse_toc_order toc)).effects, notIndexWrite e := by
    intro e he
    unfold process_files at he
    have he2 : e ∈ (processFilesCore cfg input.tree input.dryRun input.outputPath
        (parse_toc_order toc)).effects := by
      cases herr : (processFilesCore cfg input.tree input.dryRun input.outputPath
          (parse_toc_order toc)).err with
      | some e2 => simpa [herr] using he
      | none =>
        by_cases hemp2 : (cfg.filter (fun x => (processFilesCore cfg input.tree input.dryRun
            input.outputPath (parse_toc_order toc)).counts x == 0)).isEmpty
        · simpa [herr, hemp2] using he
        · simpa [herr, hemp2] using he
    exact resolveLoop_no_writeFile (buildFileMap cfg input.tree).1 input.dryRun
      input.outputPath (parse_toc_order toc) [] (fun _ => 0) [] (fun e2 he2 => by cases he2)
      e he2
  refine ⟨hmemf, ?_, ?_⟩
  · unfold runBuild
    rw [htoc]
    simp [hres]
  · intro p c hmem
    unfold runBuild at hmem
    rw [htoc] at hmem
    simp only [hres] at hmem
    have hmem2 : Effect.writeFile p c ∈
        (match input.ghOutput with
         | none => ([] : List Effect)
         | some gp => [Effect.appendFile gp (ghVersionLine (get_version toc))]) ++
        ((if input.dryRun then []
          else (if input.outputExists then [Effect.removeTree input.outputPath] else []) ++
            [Effect.mkdir input.outputPath]) ++
         (process_files cfg input.tree input.dryRun input.outputPath
           (parse_toc_order toc)).effects) := by
      simpa using hmem
    rcases List.mem_append.mp hmem2 with h1 | h12
    · cases hgh : input.ghOutput with
      | none => rw [hgh] at h1; cases h1
      | some gp =>
        rw [hgh] at h1
        rcases List.mem_cons.mp h1 with heq | h1b
        · cases heq
        · cases h1b
    · rcases List.mem_append.mp h12 with h2 | h3
      · by_cases hdry : input.dryRun
        · rw [if_pos hdry] at h2; cases h2
        · rw [if_neg hdry] at h2
          rcases List.mem_append.mp h2 with h2a | h2b
          · by_cases hex : input.outputExists
            · rw [if_pos hex] at h2a
              rcases List.mem_cons.mp h2a with heq | h2c
              · cases heq
              · cases h2c
            · rw [if_neg hex] at h2a; cases h2a
          · rcases List.mem_cons.mp h2b with heq | h2c
            · cases heq
            · cases h2c
      · exact heffs _ h3

/-- Witness for C7: over the tree missing its GuidedTour directory the
pass completes, GuidedTour has zero processed documents, the run halts
with the structural error naming it, and no index write is performed. -/
theorem c7_witness :
    (runBuild SECTIONS inMissing).outcome =
      .error "No documents found for sections: [\x27GuidedTour\x27]. Expected structure changed." ∧
    Effect.writeFile "out/SKILL.md" "anything" ∉ (runBuild SECTIONS inMissing).effects := by
  have h := c7_empty_section_fatal SECTIONS inMissing tocFull "GuidedTour"
    rfl (by decide) (by decide) (by decide)
  exact ⟨by decide, h.2.2 "out/SKILL.md" "anything"⟩

-- --- C3: dry run ----------------------------------------------------------

theorem resolveLoop_dry_effects (fm : String → Option (String × SourceFile))
    (outputPath : String) :
    ∀ (docOrder : List String) (reg : List DocumentMetadata) (cts : String → Nat)
      (effs : List Effect),
      (resolveLoop fm true outputPath docOrder reg cts effs).effects = effs := by
  intro docOrder
  induction docOrder with
  | nil => intro reg cts effs; rfl
  | cons d rest ih =>
    intro reg cts effs
    cases hfmd : fm d with
    | none =>
      simp only [resolveLoop, hfmd]
      exact ih _ _ _
    | some entry =>
      obtain ⟨sec, f⟩ := entry
      cases hext : extract_metadata f.content f.stem (f.stem ++ ".md") sec with
      | error e => simp only [resolveLoop, hfmd, hext]
      | ok meta =>
        simp only [resolveLoop, hfmd, hext, if_true, List.append_nil]
        exact ih _ _ _

theorem process_files_effects (cfg : List String) (tree : List (String × List SourceFile))
    (dryRun : Bool) (outputPath : String) (docOrder : List String) :
    (process_files cfg tree dryRun outputPath docOrder).effects =
      (processFilesCore cfg tree dryRun outputPath docOrder).effects := by
  unfold process_files
  cases herr : (processFilesCore cfg tree dryRun outputPath docOrder).err with
  | some e => simp [herr]
  | none =>
    by_cases hemp : (cfg.filter
        (fun x => (processFilesCore cfg tree dryRun outputPath docOrder).counts x == 0)).isEmpty
    · simp [herr, hemp]
    · simp [herr, hemp]

theorem process_files_dry_effects (cfg : List String) (tree : List (String × List SourceFile))
    (outputPath : String) (docOrder : List String) :
    (process_files cfg tree true outputPath docOrder).effects = [] := by
  rw [process_files_effects]
  unfold processFilesCore
  exact resolveLoop_dry_effects (buildFileMap cfg tree).1 outputPath docOrder [] (fun _ => 0) []

/-- C3 (amended).  A dry run performs parsing and validation but
suppresses every destination write — no directory preparation, content
copy, license copy, index write or archive; the one filesystem write it
still performs is the version-export append to the `GITHUB_OUTPUT` file
when that environment variable is set (and no write at all otherwise). -/
theorem c3_dry_run_effects (cfg : List String) (input : BuildInput)
    (hdry : input.dryRun = true) :
    (runBuild cfg input).effects = ghOnlyEffects input := by
  unfold runBuild ghOnlyEffects
  cases htoc : input.tocText with
  | none => simp [htoc]
  | some toc =>
    simp only [htoc]
    rw [hdry]
    have hpe : (process_files cfg input.tree true input.outputPath
        (parse_toc_order toc)).effects = [] :=
      process_files_dry_effects cfg input.tree input.outputPath (parse_toc_order toc)
    cases hres : (process_files cfg input.tree true input.outputPath
        (parse_toc_order toc)).result with
    | error e => simp [hres, hpe]
    | ok registry => simp [hres, hpe]

/-- Witness for C3 (amended): a dry run with `GITHUB_OUTPUT` unset
performs no filesystem write at all and still completes its parsing and
validation successfully. -/
theorem c3_witness :
    (runBuild SECTIONS inDryNoGh).effects = [] ∧
    (runBuild SECTIONS inDryNoGh).outcome = .ok () := by
  have h := c3_dry_run_effects SECTIONS inDryNoGh rfl
  exact ⟨by rw [h]; rfl, by decide⟩

-- --- C8: index rendering --------------------------------------------------

theorem listJoinMap_infix {α β : Type} (f : α → List β) (l : List α) (a : α) (ha : a ∈ l) :
    f a <:+: listJoinMap f l := by
  induction l with
  | nil => cases ha
  | cons b bs ih =>
    rcases List.mem_cons.mp ha with rfl | ha2
    · exact (List.prefix_append (f a) (listJoinMap f bs)).isInfix
    · exact (ih ha2).trans (List.suffix_append (f b) (listJoinMap f bs)).isInfix

/-- C8.  For every registry, the rendered index contains, for each
configured section with at least one registry entry, a contiguous block
holding exactly one entry line per document of that section — the line
carrying the document's title, the relative path `section/filename`
(twice, as link text and target), and its description with every `[`
replaced by `(` and every `]` by `)`; in particular a description
containing `[link]` is rendered with `(link)`. -/
theorem c8_index_entries (cfg : List String) (registry : List DocumentMetadata)
    (version : Option String) (key : String) (hk : key ∈ cfg)
    (hne : registry.filter (fun m => m.sectionName == key) ≠ []) :
    (("### " ++ sectionTitle key) :: "" ::
        ((registry.filter (fun m => m.sectionName == key)).map entryLine ++ [""]))
      <:+: skillLines cfg registry version ∧
    sanitizeDesc "A doc with a [link] inside." = "A doc with a (link) inside." := by
  refine ⟨?_, by decide⟩
  have hemp : (registry.filter (fun m => m.sectionName == key)).isEmpty = false := by
    cases hfl : registry.filter (fun m => m.sectionName == key) with
    | nil => exact absurd hfl hne
    | cons a l => rfl
  have hblk : sectionBlock key (registry.filter (fun m => m.sectionName == key)) =
      ("### " ++ sectionTitle key) :: "" ::
        ((registry.filter (fun m => m.sectionName == key)).map entryLine ++ [""]) := by
    simp only [sectionBlock, hemp, Bool.false_eq_true, if_false]
  have hinf : sectionBlock key (registry.filter (fun m => m.sectionName == key)) <:+:
      listJoinMap (fun k => sectionBlock k (registry.filter (fun m => m.sectionName == k))) cfg :=
    listJoinMap_infix
      (fun k => sectionBlock k (registry.filter (fun m => m.sectionName == k))) cfg key hk
  rw [hblk] at hinf
  unfold skillLines
  exact (hinf.trans (List.prefix_append _ skillFooter).isInfix).trans
    (List.suffix_append (skillPreamble version) _).isInfix

/-- Witness for C8: a one-document registry renders its LanguageGuide
block, and the bracketed description is sanitized. -/
theorem c8_witness :
    (("### " ++ sectionTitle "LanguageGuide") :: "" ::
        ((([⟨"C.md", "LanguageGuide", "Gamma Title", "Gamma [see] description."⟩] :
            List DocumentMetadata).filter
              (fun m => m.sectionName == "LanguageGuide")).map entryLine ++ [""]))
      <:+: skillLines SECTIONS
        [⟨"C.md", "LanguageGuide", "Gamma Title", "Gamma [see] description."⟩] (some "6.2") ∧
    sanitizeDesc "A doc with a [link] inside." = "A doc with a (link) inside." :=
  c8_index_entries SECTIONS
    [⟨"C.md", "LanguageGuide", "Gamma Title", "Gamma [see] description."⟩]
    (some "6.2") "LanguageGuide" (by decide) (by decide)

-- --- C9: determinism across directory scan orders -------------------------

theorem stemFindAux_some (k : String) (g : SourceFile) :
    ∀ (files : List SourceFile),
      ∃ f2, files.foldl (fun acc f => if f.stem = k then some f else acc) (some g) = some f2 := by
  intro files
  induction files generalizing g with
  | nil => exact ⟨g, rfl⟩
  | cons f fs ih =>
    rw [List.foldl_cons]
    by_cases hk : f.stem = k
    · rw [if_pos hk]
      exact ih f
    · rw [if_neg hk]
      exact ih g

theorem stemFindAux_mem (k : String) :
    ∀ (files : List SourceFile) (o : Option SourceFile) (f2 : SourceFile),
      files.foldl (fun acc f => if f.stem = k then some f else acc) o = some f2 →
      (f2 ∈ files ∧ f2.stem = k) ∨ o = some f2 := by
  intro files
  induction files with
  | nil => intro o f2 h; exact Or.inr h
  | cons f fs ih =>
    intro o f2 h
    rw [List.foldl_cons] at h
    rcases ih _ f2 h with ⟨hmem, hstem⟩ | ho
    · exact Or.inl ⟨List.mem_cons_of_mem _ hmem, hstem⟩
    · by_cases hk : f.stem = k
      · rw [if_pos hk] at ho
        injection ho with ho2
        exact Or.inl ⟨ho2 ▸ List.mem_cons_self _ _, ho2 ▸ hk⟩
      · rw [if_neg hk] at ho
        exact Or.inr ho

theorem stemFindAux_none (k : String) :
    ∀ (files : List SourceFile) (o : Option SourceFile),
      files.foldl (fun acc f => if f.stem = k then some f else acc) o = none →
      (∀ f ∈ files, f.stem ≠ k) ∧ o = none := by
  intro files
  induction files with
  | nil => intro o h; exact ⟨fun f hf => absurd hf (List.not_mem_nil f), h⟩
  | cons f fs ih =>
    intro o h
    rw [List.foldl_cons] at h
    by_cases hk : f.stem = k
    · rw [if_pos hk] at h
      obtain ⟨f2, hf2⟩ := stemFindAux_some k f fs
      rw [h] at hf2
      cases hf2
    · rw [if_neg hk] at h
      obtain ⟨hmiss, ho⟩ := ih o h
      refine ⟨?_, ho⟩
      intro f3 hf3
      rcases List.mem_cons.mp hf3 with rfl | hf4
      · exact hk
      · exact hmiss f3 hf4

theorem stemFindAux_skip (k : String) :
    ∀ (files : List SourceFile) (o : Option SourceFile),
      (∀ f ∈ files, f.stem ≠ k) →
      files.foldl (fun acc f => if f.stem = k then some f else acc) o = o := by
  intro files
  induction files with
  | nil => intro o _; rfl
  | cons f fs ih =>
    intro o h
    rw [List.foldl_cons, if_neg (h f (List.mem_cons_self _ _))]
    exact ih o (fun f2 hf2 => h f2 (List.mem_cons_of_mem _ hf2))

theorem stemFind_perm (l1 l2 : List SourceFile) (k : String) (hp : l1.Perm l2)
    (hnd : (l1.map SourceFile.stem).Nodup) : stemFind l1 k = stemFind l2 k := by
  cases h1 : stemFind l1 k with
  | none =>
    have hmiss := (stemFindAux_none k l1 none h1).1
    have hmiss2 : ∀ f ∈ l2, f.stem ≠ k := fun f hf => hmiss f (hp.symm.subset hf)
    exact (stemFindAux_skip k l2 none hmiss2).symm
  | some f =>
    rcases stemFindAux_mem k l1 none f h1 with ⟨hmem, hstem⟩ | habs
    · cases h2 : stemFind l2 k with
      | none =>
        have hmiss := (stemFindAux_none k l2 none h2).1
        exact absurd hstem (hmiss f (hp.subset hmem))
      | some g =>
        rcases stemFindAux_mem k l2 none g h2 with ⟨hmem2, hstem2⟩ | habs2
        · have hg1 : g ∈ l1 := hp.symm.subset hmem2
          have hfg : f = g :=
            List.inj_on_of_nodup_map hnd hmem hg1 (by rw [hstem, hstem2])
          rw [hfg]
        · cases habs2
    · cases habs

theorem insertAllAux (sec k : String) :
    ∀ (files : List SourceFile) (g : String → Option (String × SourceFile))
      (o : Option SourceFile) (m : String → Option (String × SourceFile)),
      g k = (match o with | some f => some (sec, f) | none => m k) →
      (files.foldl (fun acc f => fun k2 => if k2 = f.stem then some (sec, f) else acc k2) g) k =
        (match files.foldl (fun acc f => if f.stem = k then some f else acc) o with
         | some f => some (sec, f) | none => m k) := by
  intro files
  induction files with
  | nil => intro g o m h; exact h
  | cons f fs ih =>
    intro g o m h
    rw [List.foldl_cons, List.foldl_cons]
    apply ih
    by_cases hk : k = f.stem
    · have ho : (if f.stem = k then some f else o) = some f := if_pos hk.symm
      rw [ho]
      simp [hk]
    · have ho : (if f.stem = k then some f else o) = o := if_neg (fun hc => hk hc.symm)
      rw [ho]
      simpa [hk] using h

theorem insertAll_apply (m : String → Option (String × SourceFile)) (sec : String)
    (files : List SourceFile) (k : String) :
    insertAll m sec files k =
      (match stemFind files k with | some f => some (sec, f) | none => m k) :=
  insertAllAux sec k files m none m rfl

theorem insertAll_perm (m : String → Option (String × SourceFile)) (sec : String)
    (l1 l2 : List SourceFile) (hp : l1.Perm l2) (hnd : (l1.map SourceFile.stem).Nodup)
    (k : String) : insertAll m sec l1 k = insertAll m sec l2 k := by
  rw [insertAll_apply, insertAll_apply, stemFind_perm l1 l2 k hp hnd]

theorem foldl_fileMapStep_congr (t1 t2 : List (String × List SourceFile)) :
    ∀ (cfg : List String) (acc : (String → Option (String × SourceFile)) × List String),
      (∀ sec ∈ cfg, DirEquiv (lookupDir t1 sec) (lookupDir t2 sec)) →
      cfg.foldl (fileMapStep t1) acc = cfg.foldl (fileMapStep t2) acc := by
  intro cfg
  induction cfg with
  | nil => intro acc _; rfl
  | cons c cs ih =>
    intro acc h
    have hc := h c (List.mem_cons_self _ _)
    have hstep : fileMapStep t1 acc c = fileMapStep t2 acc c := by
      unfold fileMapStep
      cases h1 : lookupDir t1 c with
      | none =>
        cases h2 : lookupDir t2 c with
        | none => rfl
        | some l2 =>
          rw [h1, h2] at hc
          exact (hc : False).elim
      | some l1 =>
        cases h2 : lookupDir t2 c with
        | none =>
          rw [h1, h2] at hc
          exact (hc : False).elim
        | some l2 =>
          rw [h1, h2] at hc
          have hc2 : l1.Perm l2 ∧ (l1.map SourceFile.stem).Nodup := hc
          have hfun : insertAll acc.1 c l1 = insertAll acc.1 c l2 :=
            funext (fun k => insertAll_perm acc.1 c l1 l2 hc2.1 hc2.2 k)
          simp [hfun]
    rw [List.foldl_cons, List.foldl_cons, hstep]
    exact ih _ (fun s hs => h s (List.mem_cons_of_mem _ hs))

theorem buildFileMap_congr (cfg : List String) (t1 t2 : List (String × List SourceFile))
    (h : ∀ sec ∈ cfg, DirEquiv (lookupDir t1 sec) (lookupDir t2 sec)) :
    buildFileMap cfg t1 = buildFileMap cfg t2 :=
  foldl_fileMapStep_congr t1 t2 cfg ((fun _ => none), []) h

/-- C9.  The pipeline is deterministic in the directory-scan order: two
runs over the same TOC text and the same on-disk documents (each
section's enumeration a permutation of the other's, stems within a
directory being distinct) produce identical results — the same warnings,
the same effects (hence byte-identical rendered index text and identical
copied file sets) and the same outcome. -/
theorem c9_determinism (cfg : List String) (toc gh : Option String) (dry oe : Bool)
    (op : String) (lic : List String) (t1 t2 : List (String × List SourceFile))
    (h : ∀ sec ∈ cfg, DirEquiv (lookupDir t1 sec) (lookupDir t2 sec)) :
    runBuild cfg ⟨toc, t1, gh, dry, oe, op, lic⟩ =
      runBuild cfg ⟨toc, t2, gh, dry, oe, op, lic⟩ := by
  have hfm := buildFileMap_congr cfg t1 t2 h
  unfold runBuild process_files processFilesCore
  rw [hfm]

/-- Witness for C9: the complete tree and the same tree with its
LanguageGuide directory enumerated in the opposite order produce
identical runs. -/
theorem c9_witness : runBuild SECTIONS inFull = runBuild SECTIONS inFullSwapped :=
  c9_determinism SECTIONS (some tocFull) none false false "out" ["LICENSE.md"]
    treeFull treeFullSwapped (by decide)

end SwiftPackager
